import Mathlib

/-!
Verification of the two-stage minimal virtual machine of this repository:
the translator (`pr3asm.py`, function `translate`) lowering instruction
descriptors into an IR, and the interpreter (`pr3inter.py`, function
`execute`) running the IR against a fixed-size memory list.

The embedding follows the Python source.  In particular, list indexing is
Python list indexing: a negative index `i` with `-len ≤ i` counts from the
end of the list (`len + i`); an index outside `[-len, len)` raises
`IndexError`, which aborts the run.
-/

namespace VM

/-- The IR produced by `translate` in `pr3asm.py`: tuples
`("const", value, adress)`, `("read", adressB, adressC)`,
`("write", adressB, adressC)`, `("negate", shift, adressC, adressD)`. -/
inductive Instr where
  | const (value : Int) (adress : Int)
  | read (adressB : Int) (adressC : Int)
  | write (adressB : Int) (adressC : Int)
  | negate (shift : Int) (adressC : Int) (adressD : Int)
deriving DecidableEq, Repr

/-- Python list-index resolution for a list of length `n`: a non-negative
index must be `< n`; a negative index `i` is resolved to `n + i` when
`0 ≤ n + i`; every other index raises `IndexError` (`none`). -/
def pyIdx (n : Nat) (i : Int) : Option Nat :=
  if 0 ≤ i then
    if i < (n : Int) then some i.toNat else none
  else
    if 0 ≤ (n : Int) + i then some ((n : Int) + i).toNat else none

/-- Python `mem[i]` on a list of integers. -/
def pyGet (mem : List Int) (i : Int) : Option Int :=
  (pyIdx mem.length i).map (fun j => mem.getD j 0)

/-- Python `mem[i] = v` on a list of integers. -/
def pySet (mem : List Int) (i : Int) (v : Int) : Option (List Int) :=
  (pyIdx mem.length i).map (fun j => mem.set j v)

/-- One iteration of the dispatch loop in `execute` of `pr3inter.py`,
acting on the memory list.  Reads and writes happen in the source's
order; `none` is an uncaught `IndexError`. -/
def step (mem : List Int) : Instr → Option (List Int)
  | .const value adressC => pySet mem adressC value
  | .negate shift adressC adressD => do
      let base ← pyGet mem adressC
      let value ← pyGet mem (base + shift)
      let target ← pyGet mem adressD
      pySet mem target (-value)
  | .read adressB adressC => do
      let v ← pyGet mem adressB
      pySet mem adressC v
  | .write adressB adressC => do
      let v ← pyGet mem adressC
      pySet mem adressB v

/-- Result of a run: either the final memory, or the index of the
instruction whose `IndexError` aborted the run together with the memory
at that moment (the global `mem` of `pr3inter.py` keeps the writes of the
completed instructions). -/
inductive Outcome where
  | ok (mem : List Int)
  | fault (k : Nat) (mem : List Int)
deriving DecidableEq, Repr

/-- The memory carried by an outcome. -/
def Outcome.mem : Outcome → List Int
  | .ok m => m
  | .fault _ m => m

/-- The instruction loop of `execute`, tracking the position `k` of the
current instruction. -/
def execAux : List Instr → List Int → Nat → Outcome
  | [], mem, _ => .ok mem
  | i :: rest, mem, k =>
    match step mem i with
    | some mem2 => execAux rest mem2 (k + 1)
    | none => .fault k mem

/-- `execute` of `pr3inter.py`, with the memory store passed explicitly
instead of the global `mem` list. -/
def execute (p : List Instr) (mem : List Int) : Outcome :=
  execAux p mem 0

/-- An instruction descriptor as `translate` of `pr3asm.py` receives it
after `json.loads`: an object with an `op` entry and further integer
entries (`value`, `adress`, `adressB`, `adressC`, `adressD`, `shift`),
here split into the opcode string and the remaining key/value pairs. -/
structure Descriptor where
  op : String
  fields : List (String × Int)
deriving DecidableEq, Repr

/-- Python `cmd[key]`: the value stored under `key`, or a `KeyError`
(`Except.error key`) when the key is absent. -/
def getField (cmd : Descriptor) (key : String) : Except String Int :=
  match cmd.fields.find? (fun kv => kv.1 = key) with
  | some kv => .ok kv.2
  | none => .error key

/-- One pass of the descriptor loop in `translate`: the four recognised
opcodes produce an instruction; any other opcode falls through the
`if`/`elif` chain and produces nothing; a missing field is an uncaught
`KeyError`. -/
def translateCmd (cmd : Descriptor) : Except String (Option Instr) :=
  if cmd.op = "const" then do
    let value ← getField cmd "value"
    let adress ← getField cmd "adress"
    .ok (some (.const value adress))
  else if cmd.op = "read" then do
    let adressB ← getField cmd "adressB"
    let adressC ← getField cmd "adressC"
    .ok (some (.read adressB adressC))
  else if cmd.op = "write" then do
    let adressB ← getField cmd "adressB"
    let adressC ← getField cmd "adressC"
    .ok (some (.write adressB adressC))
  else if cmd.op = "negate" then do
    let shift ← getField cmd "shift"
    let adressC ← getField cmd "adressC"
    let adressD ← getField cmd "adressD"
    .ok (some (.negate shift adressC adressD))
  else
    .ok none

/-- `translate` of `pr3asm.py` on the already-decoded descriptor list:
the loop appends the lowering of each recognised descriptor to `output`
in input order; an exception aborts the whole translation. -/
def translate : List Descriptor → Except String (List Instr)
  | [] => .ok []
  | cmd :: rest => do
    let head ← translateCmd cmd
    let tail ← translate rest
    match head with
    | some i => .ok (i :: tail)
    | none => .ok tail

/-- The descriptor owns the given field. -/
def hasField (cmd : Descriptor) (key : String) : Prop :=
  (cmd.fields.find? (fun kv => kv.1 = key)).isSome

instance (cmd : Descriptor) (key : String) : Decidable (hasField cmd key) := by
  unfold hasField; infer_instance

/-- A valid descriptor: one of the four known opcodes, with the fields
that opcode reads present. -/
def isValidDescriptor (cmd : Descriptor) : Prop :=
  (cmd.op = "const" ∧ hasField cmd "value" ∧ hasField cmd "adress") ∨
  (cmd.op = "read" ∧ hasField cmd "adressB" ∧ hasField cmd "adressC") ∨
  (cmd.op = "write" ∧ hasField cmd "adressB" ∧ hasField cmd "adressC") ∨
  (cmd.op = "negate" ∧ hasField cmd "shift" ∧ hasField cmd "adressC" ∧
    hasField cmd "adressD")

instance (cmd : Descriptor) : Decidable (isValidDescriptor cmd) := by
  unfold isValidDescriptor; infer_instance

/-- Field lookup with a default, total companion of `getField`. -/
def fieldD (cmd : Descriptor) (key : String) : Int :=
  ((cmd.fields.find? (fun kv => kv.1 = key)).map (fun kv => kv.2)).getD 0

/-- The lowering of a single valid descriptor, as `translate` builds it. -/
def lower (cmd : Descriptor) : Instr :=
  if cmd.op = "const" then .const (fieldD cmd "value") (fieldD cmd "adress")
  else if cmd.op = "read" then .read (fieldD cmd "adressB") (fieldD cmd "adressC")
  else if cmd.op = "write" then .write (fieldD cmd "adressB") (fieldD cmd "adressC")
  else .negate (fieldD cmd "shift") (fieldD cmd "adressC") (fieldD cmd "adressD")

/-! ### Persistence of the IR

`pr3asm.py` writes `str(ir)` to the output file and `pr3inter.py` reads
the text back with `eval`.  `str` of the IR list prints
`[('const', 1, 2), ('negate', -1, 0, 3)]`; the functions below render
exactly that text, and read it back as `eval` does on this grammar. -/

/-- The decimal digit character of `n % 10`, as Python prints it. -/
def natDigit (n : Nat) : Char :=
  if n % 10 = 0 then '0' else if n % 10 = 1 then '1'
  else if n % 10 = 2 then '2' else if n % 10 = 3 then '3'
  else if n % 10 = 4 then '4' else if n % 10 = 5 then '5'
  else if n % 10 = 6 then '6' else if n % 10 = 7 then '7'
  else if n % 10 = 8 then '8' else '9'

/-- Python decimal rendering of a natural number. -/
def renderNat (n : Nat) : List Char :=
  if n < 10 then [natDigit n]
  else renderNat (n / 10) ++ [natDigit n]
decreasing_by exact Nat.div_lt_self (by omega) (by omega)

/-- Python decimal rendering of an integer (`repr`). -/
def renderInt (i : Int) : List Char :=
  if i < 0 then '-' :: renderNat (-i).toNat else renderNat i.toNat

/-- The single-quote character of Python `repr` of a string. -/
def quoteChar : Char := Char.ofNat 39

/-- `repr` of one opcode tag at the head of a tuple: an opening
parenthesis, the quoted name, a comma and a space. -/
def tagOf (name : List Char) : List Char :=
  '(' :: quoteChar :: (name ++ quoteChar :: ',' :: ' ' :: [])

def constName : List Char := ['c', 'o', 'n', 's', 't']
def readName : List Char := ['r', 'e', 'a', 'd']
def writeName : List Char := ['w', 'r', 'i', 't', 'e']
def negateName : List Char := ['n', 'e', 'g', 'a', 't', 'e']

/-- Python `repr` of one IR tuple. -/
def renderInstr : Instr → List Char
  | .const value adress =>
      tagOf constName ++ (renderInt value ++ ',' :: ' ' ::
        (renderInt adress ++ [')']))
  | .read adressB adressC =>
      tagOf readName ++ (renderInt adressB ++ ',' :: ' ' ::
        (renderInt adressC ++ [')']))
  | .write adressB adressC =>
      tagOf writeName ++ (renderInt adressB ++ ',' :: ' ' ::
        (renderInt adressC ++ [')']))
  | .negate shift adressC adressD =>
      tagOf negateName ++ (renderInt shift ++ ',' :: ' ' ::
        (renderInt adressC ++ ',' :: ' ' :: (renderInt adressD ++ [')'])))

/-- The comma-space separated tuple list inside Python `str` of a list. -/
def renderItems : List Instr → List Char
  | [] => []
  | [i] => renderInstr i
  | i :: rest => renderInstr i ++ ',' :: ' ' :: renderItems rest

/-- The text `pr3asm.py` persists: Python `str` of the IR list. -/
def serialize (p : List Instr) : List Char :=
  '[' :: (renderItems p ++ [']'])

/-- Decimal digit test on a character. -/
def isDigitC (c : Char) : Bool :=
  48 ≤ c.toNat && c.toNat ≤ 57

/-- The value of a decimal digit character. -/
def digitVal (c : Char) : Nat := c.toNat - 48

/-- Reads a maximal run of decimal digits, accumulating their value. -/
def parseNatAux (acc : Nat) : List Char → Nat × List Char
  | [] => (acc, [])
  | c :: rest =>
    if isDigitC c then parseNatAux (acc * 10 + digitVal c) rest
    else (acc, c :: rest)

/-- Reads a decimal natural number (at least one digit). -/
def parseNat (s : List Char) : Option (Nat × List Char) :=
  match s with
  | c :: _ => if isDigitC c then some (parseNatAux 0 s) else none
  | [] => none

/-- Reads a decimal integer with an optional leading minus sign. -/
def parseInt (s : List Char) : Option (Int × List Char) :=
  match s with
  | c :: s2 =>
    if c = '-' then (parseNat s2).map (fun pr => (-(pr.1 : Int), pr.2))
    else (parseNat s).map (fun pr => ((pr.1 : Int), pr.2))
  | [] => none

/-- Drops the literal `l` from the front of `s`, failing on mismatch. -/
def stripL : List Char → List Char → Option (List Char)
  | [], s => some s
  | _ :: _, [] => none
  | c :: l, d :: s => if c = d then stripL l s else none

/-- Reads `v, w)` after an opcode tag, building a two-operand tuple. -/
def parseArgs2 (mk : Int → Int → Instr) (s : List Char) :
    Option (Instr × List Char) := do
  let p1 ← parseInt s
  let s1 ← stripL [',', ' '] p1.2
  let p2 ← parseInt s1
  let s2 ← stripL [')'] p2.2
  some (mk p1.1 p2.1, s2)

/-- Reads `v, w, x)` after an opcode tag, building a three-operand
tuple. -/
def parseArgs3 (mk : Int → Int → Int → Instr) (s : List Char) :
    Option (Instr × List Char) := do
  let p1 ← parseInt s
  let s1 ← stripL [',', ' '] p1.2
  let p2 ← parseInt s1
  let s2 ← stripL [',', ' '] p2.2
  let p3 ← parseInt s2
  let s3 ← stripL [')'] p3.2
  some (mk p1.1 p2.1 p3.1, s3)

/-- Reads one IR tuple, dispatching on the quoted opcode name. -/
def parseInstr (s : List Char) : Option (Instr × List Char) :=
  match stripL (tagOf constName) s with
  | some s1 => parseArgs2 Instr.const s1
  | none =>
  match stripL (tagOf readName) s with
  | some s1 => parseArgs2 Instr.read s1
  | none =>
  match stripL (tagOf writeName) s with
  | some s1 => parseArgs2 Instr.write s1
  | none =>
  match stripL (tagOf negateName) s with
  | some s1 => parseArgs3 Instr.negate s1
  | none => none

/-- Reads a comma-space separated run of IR tuples; the fuel bounds the
number of tuples and only needs to be at least their count. -/
def parseItems : Nat → List Char → Option (List Instr × List Char)
  | 0, _ => none
  | fuel + 1, s =>
    match parseInstr s with
    | none => none
    | some (i, rest) =>
      match rest with
      | ',' :: ' ' :: rest2 =>
        (parseItems fuel rest2).map (fun pr => (i :: pr.1, pr.2))
      | _ => some ([i], rest)

/-- Reading the persisted text back, as `eval` recovers the list of
tuples from `str(ir)`: the value `eval` yields on the grammar that
`serialize` emits, `none` elsewhere. -/
def deserialize (s : List Char) : Option (List Instr) :=
  match s with
  | '[' :: rest =>
    if rest = [']'] then some []
    else
      match parseItems rest.length rest with
      | some (is, [']']) => some is
      | _ => none
  | _ => none

/-! ### Address-range predicates

Written from the spec's words on faulting, to be compared with the
behaviour of `step`: an index is accepted by a Python list of length `n`
exactly when it lies in `[-n, n)`, and the spec's `AddressOutOfRange`
event on an instruction is phrased below as one of the addresses the
instruction resolves falling outside that range. -/

/-- The indices a Python list of length `n` accepts. -/
def inRangePy (n : Nat) (i : Int) : Prop :=
  -(n : Int) ≤ i ∧ i < (n : Int)

instance (n : Nat) (i : Int) : Decidable (inRangePy n i) := by
  unfold inRangePy; infer_instance

/-- Total companion of `pyGet` (the value is only quoted where the read
is known to succeed). -/
def totGet (mem : List Int) (i : Int) : Int :=
  (pyGet mem i).getD 0

/-- Modelled from the spec: "any address resolved during that
instruction (including the indirectly-resolved effective and target
addresses of Negate) lies outside" the accepted index range. -/
def addressFault (mem : List Int) : Instr → Prop
  | .const _ adressC => ¬ inRangePy mem.length adressC
  | .read adressB adressC =>
      ¬ inRangePy mem.length adressB ∨ ¬ inRangePy mem.length adressC
  | .write adressB adressC =>
      ¬ inRangePy mem.length adressC ∨ ¬ inRangePy mem.length adressB
  | .negate shift adressC adressD =>
      ¬ inRangePy mem.length adressC ∨
      ¬ inRangePy mem.length (totGet mem adressC + shift) ∨
      ¬ inRangePy mem.length adressD ∨
      ¬ inRangePy mem.length (totGet mem adressD)

instance (mem : List Int) (i : Instr) : Decidable (addressFault mem i) := by
  cases i <;> (unfold addressFault; infer_instance)

/-- `10 ^ (number of decimal digits of n)`, following the recursion of
`renderNat`. -/
def tenPow (n : Nat) : Nat :=
  if n < 10 then 10 else tenPow (n / 10) * 10
decreasing_by exact Nat.div_lt_self (by omega) (by omega)

/-- Whether the text starts with a decimal digit. -/
def headDigit : List Char → Bool
  | c :: _ => isDigitC c
  | [] => false

/-! ### Basic lemmas about indexing and `step` -/

theorem pyIdx_nonneg (n : Nat) (i : Int) (h0 : 0 ≤ i) (h1 : i < (n : Int)) :
    pyIdx n i = some i.toNat := by
  simp [pyIdx, h0, h1]

theorem pyGet_nonneg (mem : List Int) (i : Int) (h0 : 0 ≤ i)
    (h1 : i < (mem.length : Int)) :
    pyGet mem i = some (mem.getD i.toNat 0) := by
  simp [pyGet, pyIdx_nonneg mem.length i h0 h1]

theorem pySet_nonneg (mem : List Int) (i v : Int) (h0 : 0 ≤ i)
    (h1 : i < (mem.length : Int)) :
    pySet mem i v = some (mem.set i.toNat v) := by
  simp [pySet, pyIdx_nonneg mem.length i h0 h1]

theorem getD_set_self (l : List Int) (n : Nat) (v : Int) (h : n < l.length) :
    (l.set n v).getD n 0 = v := by
  rw [List.getD_eq_getElem (l.set n v) 0 (by simpa using h)]
  exact List.getElem_set_self (by simpa using h)

theorem getD_set_ne (l : List Int) (n m : Nat) (v : Int) (hnm : n ≠ m)
    (h : m < l.length) :
    (l.set n v).getD m 0 = l.getD m 0 := by
  rw [List.getD_eq_getElem (l.set n v) 0 (by simpa using h),
    List.getD_eq_getElem l 0 h]
  exact List.getElem_set_ne hnm (by simpa using h)

theorem set_getD_self (l : List Int) (n : Nat) (h : n < l.length) :
    l.set n (l.getD n 0) = l := by
  apply List.ext_getElem
  · simp
  · intro i h1 h2
    by_cases hin : n = i
    · subst hin
      rw [List.getElem_set_self h1, List.getD_eq_getElem l 0 h]
    · exact List.getElem_set_ne hin h1

/-! ### C1: the `Negate` double indirection -/

/-- C1: executing `Negate{shift, base, destPtr}` on `mem` resolves
`effective := mem[base] + shift`, reads `value := mem[effective]`,
resolves `target := mem[destPtr]` and stores `mem[target] := -value`
(here on in-range non-negative addresses, where every resolution
succeeds); the concrete instance of the claim is the witness below. -/
theorem negate_double_indirection (mem : List Int) (shift base destPtr : Int)
    (hb0 : 0 ≤ base) (hb1 : base < (mem.length : Int))
    (he0 : 0 ≤ mem.getD base.toNat 0 + shift)
    (he1 : mem.getD base.toNat 0 + shift < (mem.length : Int))
    (hd0 : 0 ≤ destPtr) (hd1 : destPtr < (mem.length : Int))
    (ht0 : 0 ≤ mem.getD destPtr.toNat 0)
    (ht1 : mem.getD destPtr.toNat 0 < (mem.length : Int)) :
    step mem (.negate shift base destPtr) =
      some (mem.set (mem.getD destPtr.toNat 0).toNat
        (-(mem.getD (mem.getD base.toNat 0 + shift).toNat 0))) := by
  simp only [step, pyGet_nonneg mem base hb0 hb1, Option.bind_some,
    Option.some_bind, bind]
  rw [pyGet_nonneg mem _ he0 he1]
  simp only [Option.bind_eq_bind, Option.some_bind]
  rw [pyGet_nonneg mem destPtr hd0 hd1]
  simp only [Option.bind_eq_bind, Option.some_bind]
  rw [pySet_nonneg mem _ _ ht0 ht1]

/-- Witness for C1, the concrete instance stated by the claim:
`mem[0]=2`, `mem[1]=4`, `mem[3]=9` on a memory of size 5, and
`Negate{shift:1, base:0, destPtr:1}` stores `-9` into `mem[4]`. -/
theorem negate_double_indirection_witness :
    step [2, 4, 0, 9, 0] (.negate 1 0 1) = some [2, 4, 0, 9, -9] ∧
      [2, 4, 0, 9, -9].getD 4 0 = -9 :=
  ⟨(negate_double_indirection [2, 4, 0, 9, 0] 1 0 1 (by decide) (by decide)
      (by decide) (by decide) (by decide) (by decide) (by decide)
      (by decide)).trans (by decide),
    by decide⟩

/-! ### C4, C6, C9: direct copies -/

/-- C4: on in-range addresses, `Write{s,d}` stores `mem[d]` into the
`s` slot and leaves `mem[d]` unchanged, while `Read{s,d}` stores
`mem[s]` into the `d` slot — the operand roles of `Write` are exactly
the reverse of `Read`. -/
theorem write_read_asymmetry (mem : List Int) (s d : Int)
    (hs0 : 0 ≤ s) (hs1 : s < (mem.length : Int))
    (hd0 : 0 ≤ d) (hd1 : d < (mem.length : Int)) :
    step mem (.write s d) = some (mem.set s.toNat (mem.getD d.toNat 0)) ∧
    (mem.set s.toNat (mem.getD d.toNat 0)).getD d.toNat 0 =
      mem.getD d.toNat 0 ∧
    step mem (.read s d) = some (mem.set d.toNat (mem.getD s.toNat 0)) := by
  have hdn : d.toNat < mem.length := by omega
  refine ⟨?_, ?_, ?_⟩
  · show (do
        let v ← pyGet mem d
        pySet mem s v) = _
    rw [pyGet_nonneg mem d hd0 hd1]
    simp only [Option.bind_eq_bind, Option.some_bind]
    exact pySet_nonneg mem s _ hs0 hs1
  · by_cases hsd : s.toNat = d.toNat
    · rw [hsd]
      exact getD_set_self mem d.toNat _ hdn
    · exact getD_set_ne mem s.toNat d.toNat _ hsd hdn
  · show (do
        let v ← pyGet mem s
        pySet mem d v) = _
    rw [pyGet_nonneg mem s hs0 hs1]
    simp only [Option.bind_eq_bind, Option.some_bind]
    exact pySet_nonneg mem d _ hd0 hd1

/-- Witness for C4 at `mem = [10, 20]`, `s = 0`, `d = 1`. -/
theorem write_read_asymmetry_witness :
    step [10, 20] (.write 0 1) = some [20, 20] ∧
      ([20, 20] : List Int).getD 1 0 = 20 ∧
      step [10, 20] (.read 0 1) = some [10, 10] := by
  have h := write_read_asymmetry [10, 20] 0 1 (by decide) (by decide)
    (by decide) (by decide)
  exact ⟨h.1.trans (by decide), by decide, h.2.2.trans (by decide)⟩

/-- Any successfully stepped instruction followed by more program. -/
theorem execAux_cons (i : Instr) (rest : List Instr) (mem : List Int)
    (k : Nat) (mem2 : List Int) (h : step mem i = some mem2) :
    execAux (i :: rest) mem k = execAux rest mem2 (k + 1) := by
  simp [execAux, h]

/-- A faulting instruction stops the loop at the current position. -/
theorem execAux_cons_fault (i : Instr) (rest : List Instr) (mem : List Int)
    (k : Nat) (h : step mem i = none) :
    execAux (i :: rest) mem k = .fault k mem := by
  simp [execAux, h]

/-- C6: `Const{value:v, dest:d}` immediately followed by
`Read{src:d, dest:d2}` leaves `v` in `mem[d2]`, for in-range `d`, `d2`
and every integer `v`. -/
theorem const_then_read (mem : List Int) (v d d2 : Int)
    (hd0 : 0 ≤ d) (hd1 : d < (mem.length : Int))
    (h20 : 0 ≤ d2) (h21 : d2 < (mem.length : Int)) :
    ∃ final, execute [.const v d, .read d d2] mem = .ok final ∧
      final.getD d2.toNat 0 = v := by
  have hlen : (mem.set d.toNat v).length = mem.length :=
    List.length_set mem d.toNat v
  have hstep1 : step mem (.const v d) = some (mem.set d.toNat v) :=
    pySet_nonneg mem d v hd0 hd1
  have hstep2 : step (mem.set d.toNat v) (.read d d2) =
      some ((mem.set d.toNat v).set d2.toNat v) := by
    show (do
        let w ← pyGet (mem.set d.toNat v) d
        pySet (mem.set d.toNat v) d2 w) = _
    rw [pyGet_nonneg (mem.set d.toNat v) d hd0 (by rw [hlen]; exact hd1)]
    simp only [Option.bind_eq_bind, Option.some_bind]
    rw [getD_set_self mem d.toNat v (by omega)]
    exact pySet_nonneg (mem.set d.toNat v) d2 v h20 (by rw [hlen]; exact h21)
  refine ⟨(mem.set d.toNat v).set d2.toNat v, ?_, ?_⟩
  · rw [execute, execAux_cons _ _ _ _ _ hstep1, execAux_cons _ _ _ _ _ hstep2]
    rfl
  · exact getD_set_self (mem.set d.toNat v) d2.toNat v (by omega)

/-- Witness for C6 at `mem = [0, 0, 0]`, `v = 42`, `d = 0`, `d2 = 2`. -/
theorem const_then_read_witness :
    ∃ final, execute [.const 42 0, .read 0 2] [0, 0, 0] = .ok final ∧
      final.getD 2 0 = 42 :=
  const_then_read [0, 0, 0] 42 0 2 (by decide) (by decide) (by decide)
    (by decide)

/-- C9: copying a cell onto itself is the identity: both
`Read{src:a, dest:a}` and `Write{src:a, dest:a}` leave the memory
unchanged, for every in-range `a`. -/
theorem self_copy_identity (mem : List Int) (a : Int)
    (h0 : 0 ≤ a) (h1 : a < (mem.length : Int)) :
    step mem (.read a a) = some mem ∧ step mem (.write a a) = some mem := by
  have ha : a.toNat < mem.length := by omega
  constructor
  · show (do
        let v ← pyGet mem a
        pySet mem a v) = _
    rw [pyGet_nonneg mem a h0 h1]
    simp only [Option.bind_eq_bind, Option.some_bind]
    rw [pySet_nonneg mem a _ h0 h1, set_getD_self mem a.toNat ha]
  · show (do
        let v ← pyGet mem a
        pySet mem a v) = _
    rw [pyGet_nonneg mem a h0 h1]
    simp only [Option.bind_eq_bind, Option.some_bind]
    rw [pySet_nonneg mem a _ h0 h1, set_getD_self mem a.toNat ha]

/-- Witness for C9 at `mem = [3, 7]`, `a = 1`. -/
theorem self_copy_identity_witness :
    step [3, 7] (.read 1 1) = some [3, 7] ∧
      step [3, 7] (.write 1 1) = some [3, 7] :=
  self_copy_identity [3, 7] 1 (by decide) (by decide)

/-! ### C8: the memory size is invariant -/

theorem pySet_length (mem : List Int) (i v : Int) (mem2 : List Int)
    (h : pySet mem i v = some mem2) : mem2.length = mem.length := by
  unfold pySet at h
  cases hidx : pyIdx mem.length i with
  | none => rw [hidx] at h; simp at h
  | some j =>
    rw [hidx] at h
    simp only [Option.map_some', Option.some.injEq] at h
    rw [← h]
    exact List.length_set mem j v

theorem step_length (i : Instr) (mem mem2 : List Int)
    (h : step mem i = some mem2) : mem2.length = mem.length := by
  cases i with
  | const value adress => exact pySet_length _ _ _ _ h
  | read adressB adressC =>
    have h2 : (do
        let v ← pyGet mem adressB
        pySet mem adressC v) = some mem2 := h
    cases hg : pyGet mem adressB with
    | none => rw [hg] at h2; simp at h2
    | some v =>
      rw [hg] at h2
      simp only [Option.bind_eq_bind, Option.some_bind] at h2
      exact pySet_length _ _ _ _ h2
  | write adressB adressC =>
    have h2 : (do
        let v ← pyGet mem adressC
        pySet mem adressB v) = some mem2 := h
    cases hg : pyGet mem adressC with
    | none => rw [hg] at h2; simp at h2
    | some v =>
      rw [hg] at h2
      simp only [Option.bind_eq_bind, Option.some_bind] at h2
      exact pySet_length _ _ _ _ h2
  | negate shift adressC adressD =>
    have h2 : (do
        let base ← pyGet mem adressC
        let value ← pyGet mem (base + shift)
        let target ← pyGet mem adressD
        pySet mem target (-value)) = some mem2 := h
    cases hg1 : pyGet mem adressC with
    | none => rw [hg1] at h2; simp at h2
    | some base =>
      rw [hg1] at h2
      simp only [Option.bind_eq_bind, Option.some_bind] at h2
      cases hg2 : pyGet mem (base + shift) with
      | none => rw [hg2] at h2; simp at h2
      | some value =>
        rw [hg2] at h2
        simp only [Option.bind_eq_bind, Option.some_bind] at h2
        cases hg3 : pyGet mem adressD with
        | none => rw [hg3] at h2; simp at h2
        | some target =>
          rw [hg3] at h2
          simp only [Option.bind_eq_bind, Option.some_bind] at h2
          exact pySet_length _ _ _ _ h2

theorem execAux_mem_length :
    ∀ (p : List Instr) (mem : List Int) (k : Nat),
      ((execAux p mem k).mem).length = mem.length
  | [], _, _ => rfl
  | i :: rest, mem, k => by
    cases hs : step mem i with
    | none => rw [execAux_cons_fault i rest mem k hs]; rfl
    | some mem2 =>
      rw [execAux_cons i rest mem k mem2 hs]
      rw [execAux_mem_length rest mem2 (k + 1), step_length i mem mem2 hs]

/-- C8: no instruction changes the number of memory cells, and hence a
whole run (successful or faulting) keeps the memory size. -/
theorem memory_length_invariant :
    (∀ (i : Instr) (mem mem2 : List Int),
        step mem i = some mem2 → mem2.length = mem.length) ∧
    (∀ (p : List Instr) (mem : List Int),
        ((execute p mem).mem).length = mem.length) :=
  ⟨step_length, fun p mem => execAux_mem_length p mem 0⟩

/-- Witness for C8 at a concrete step. -/
theorem memory_length_invariant_witness :
    step [0, 0] (.const 5 0) = some [5, 0] ∧
      ([5, 0] : List Int).length = ([0, 0] : List Int).length :=
  ⟨by decide, memory_length_invariant.1 (.const 5 0) [0, 0] [5, 0] (by decide)⟩

/-! ### C10: determinism -/

/-- C10: execution is a function of the program and the initial memory
alone: equal initial memories give equal outcomes, including the fault
position on failure. -/
theorem interpreter_deterministic (p : List Instr) (m1 m2 : List Int)
    (h : m1 = m2) : execute p m1 = execute p m2 := by
  rw [h]

/-- Witness for C10 at a concrete program and memory. -/
theorem interpreter_deterministic_witness :
    ([5, 0] : List Int) = [5, 0] ∧
      execute [.read 0 1] [5, 0] = execute [.read 0 1] [5, 0] :=
  ⟨rfl, interpreter_deterministic [.read 0 1] [5, 0] [5, 0] rfl⟩

/-! ### C2: faults, wraparound and prior writes -/

theorem pyIdx_eq_none_iff (n : Nat) (i : Int) :
    pyIdx n i = none ↔ ¬ inRangePy n i := by
  unfold pyIdx inRangePy
  split_ifs <;> simp_all <;> omega

theorem pyGet_eq_none_iff (mem : List Int) (i : Int) :
    pyGet mem i = none ↔ ¬ inRangePy mem.length i := by
  rw [pyGet, Option.map_eq_none', pyIdx_eq_none_iff]

theorem pySet_eq_none_iff (mem : List Int) (i v : Int) :
    pySet mem i v = none ↔ ¬ inRangePy mem.length i := by
  rw [pySet, Option.map_eq_none', pyIdx_eq_none_iff]

theorem pyGet_inRange (mem : List Int) (i : Int)
    (h : inRangePy mem.length i) : pyGet mem i = some (totGet mem i) := by
  cases hg : pyGet mem i with
  | none => exact absurd ((pyGet_eq_none_iff mem i).mp hg) (by simpa using h)
  | some x => rw [totGet, hg]; rfl

theorem step_eq_none_iff (mem : List Int) (i : Instr) :
    step mem i = none ↔ addressFault mem i := by
  cases i with
  | const value adress =>
    exact pySet_eq_none_iff mem adress value
  | read adressB adressC =>
    show (do
        let v ← pyGet mem adressB
        pySet mem adressC v) = none ↔ _
    by_cases hb : inRangePy mem.length adressB
    · rw [pyGet_inRange mem adressB hb]
      simp only [Option.bind_eq_bind, Option.some_bind]
      rw [pySet_eq_none_iff]
      simp [addressFault, hb]
    · rw [(pyGet_eq_none_iff mem adressB).mpr hb]
      simp [addressFault, hb]
  | write adressB adressC =>
    show (do
        let v ← pyGet mem adressC
        pySet mem adressB v) = none ↔ _
    by_cases hc : inRangePy mem.length adressC
    · rw [pyGet_inRange mem adressC hc]
      simp only [Option.bind_eq_bind, Option.some_bind]
      rw [pySet_eq_none_iff]
      simp [addressFault, hc]
    · rw [(pyGet_eq_none_iff mem adressC).mpr hc]
      simp [addressFault, hc]
  | negate shift adressC adressD =>
    show (do
        let base ← pyGet mem adressC
        let value ← pyGet mem (base + shift)
        let target ← pyGet mem adressD
        pySet mem target (-value)) = none ↔ _
    by_cases hc : inRangePy mem.length adressC
    · rw [pyGet_inRange mem adressC hc]
      simp only [Option.bind_eq_bind, Option.some_bind]
      by_cases he : inRangePy mem.length (totGet mem adressC + shift)
      · rw [pyGet_inRange mem _ he]
        simp only [Option.some_bind]
        by_cases hd : inRangePy mem.length adressD
        · rw [pyGet_inRange mem adressD hd]
          simp only [Option.some_bind]
          rw [pySet_eq_none_iff]
          simp [addressFault, hc, he, hd]
        · rw [(pyGet_eq_none_iff mem adressD).mpr hd]
          simp [addressFault, hd]
      · rw [(pyGet_eq_none_iff mem _).mpr he]
        simp [addressFault, he]
    · rw [(pyGet_eq_none_iff mem adressC).mpr hc]
      simp [addressFault, hc]

theorem execAux_fault :
    ∀ (p : List Instr) (mem : List Int) (j k : Nat) (memF : List Int),
      execAux p mem j = .fault k memF →
      j ≤ k ∧ ∃ h : k - j < p.length,
        execAux (p.take (k - j)) mem j = .ok memF ∧
        step memF (p.get ⟨k - j, h⟩) = none
  | [], mem, j, k, memF => by
    intro h
    exact absurd h (by simp [execAux])
  | i :: rest, mem, j, k, memF => by
    intro h
    cases hs : step mem i with
    | none =>
      rw [execAux_cons_fault i rest mem j hs] at h
      simp only [Outcome.fault.injEq] at h
      obtain ⟨rfl, rfl⟩ := h
      refine ⟨Nat.le_refl j, ?_⟩
      rw [Nat.sub_self]
      exact ⟨by simp, rfl, hs⟩
    | some mem2 =>
      rw [execAux_cons i rest mem j mem2 hs] at h
      obtain ⟨hjk, hlt, hok, hstep⟩ := execAux_fault rest mem2 (j + 1) k memF h
      refine ⟨by omega, ?_⟩
      have hkj : k - j = (k - (j + 1)) + 1 := by omega
      rw [hkj]
      refine ⟨by simpa using hlt, ?_, ?_⟩
      · rw [List.take_succ_cons, execAux_cons i _ mem j mem2 hs]
        exact hok
      · exact hstep

/-- C2 amended: an address is accepted by the memory exactly when it
lies in the Python index range `[-memorySize, memorySize)` (a negative
address in `[-memorySize, 0)` silently indexes from the end instead of
faulting); an instruction faults exactly when one of the addresses it
resolves — including the `effective` and `target` of `Negate` — falls
outside that range; and a faulting run stops at the faulting
instruction, with the memory exactly the state left by the prior
completed instructions, the out-of-range assignment never happening. -/
theorem address_fault_aborts_preserving_prior_writes :
    (∀ (mem : List Int) (i : Instr), step mem i = none ↔ addressFault mem i) ∧
    (∀ (p : List Instr) (mem : List Int) (k : Nat) (memF : List Int),
        execute p mem = .fault k memF →
        ∃ h : k < p.length, execute (p.take k) mem = .ok memF ∧
          addressFault memF (p.get ⟨k, h⟩)) := by
  refine ⟨step_eq_none_iff, ?_⟩
  intro p mem k memF h
  obtain ⟨-, hlt, hok, hstep⟩ := execAux_fault p mem 0 k memF h
  exact ⟨hlt, hok, (step_eq_none_iff memF _).mp hstep⟩

/-- Counterexample to C2 as stated: the claim demands that a negative
address faults rather than indexing from the end, but `Const{7, -1}` on
a five-cell memory completes without fault and writes the last cell
(Python wraparound). -/
theorem negative_address_no_fault_counterexample :
    execute [.const 7 (-1)] [0, 0, 0, 0, 0] = .ok [0, 0, 0, 0, 7] ∧
      ¬ (0 ≤ (-1 : Int) ∧ (-1 : Int) < 5) := by
  exact ⟨rfl, by decide⟩

/-- Witness for C2 (amended), at the concrete faulting run
`Const{2,0}; Negate{9,0,1}` on `[0,0,0,0,0]`: the run faults at
instruction 1 with the write of instruction 0 intact. -/
theorem address_fault_aborts_witness :
    ∃ h : 1 < ([Instr.const 2 0, Instr.negate 9 0 1] : List Instr).length,
      execute ([Instr.const 2 0, Instr.negate 9 0 1].take 1) [0, 0, 0, 0, 0] =
        .ok [2, 0, 0, 0, 0] ∧
      addressFault [2, 0, 0, 0, 0]
        ([Instr.const 2 0, Instr.negate 9 0 1].get ⟨1, h⟩) :=
  address_fault_aborts_preserving_prior_writes.2
    [Instr.const 2 0, Instr.negate 9 0 1] [0, 0, 0, 0, 0] 1 [2, 0, 0, 0, 0]
    (by decide)

/-! ### C3, C5: the translator -/

/-- C3 amended: a descriptor whose opcode matches none of the four known
names is silently dropped — translating it together with any remaining
descriptors gives exactly the translation of the remaining descriptors,
with no `UnknownOpcode` failure. -/
theorem unknown_opcode_skipped (cmd : Descriptor) (rest : List Descriptor)
    (h1 : cmd.op ≠ "const") (h2 : cmd.op ≠ "read")
    (h3 : cmd.op ≠ "write") (h4 : cmd.op ≠ "negate") :
    translate (cmd :: rest) = translate rest := by
  have hc : translateCmd cmd = .ok none := by
    unfold translateCmd
    rw [if_neg h1, if_neg h2, if_neg h3, if_neg h4]
  show (translateCmd cmd >>= fun head =>
      translate rest >>= fun tail =>
        match head with
        | some i => Except.ok (i :: tail)
        | none => Except.ok tail) = translate rest
  rw [hc]
  cases htr : translate rest
  · rfl
  · rfl

/-- Counterexample to C3 as stated: a descriptor list with the unknown
opcode `jump` does not fail — the descriptor is dropped and translation
continues with the rest. -/
theorem unknown_opcode_dropped_counterexample :
    translate [⟨"jump", []⟩] = .ok [] ∧
      translate [⟨"jump", []⟩, ⟨"const", [("value", 1), ("adress", 0)]⟩] =
        .ok [.const 1 0] :=
  ⟨rfl, rfl⟩

/-- Witness for C3 (amended) at a concrete descriptor list. -/
theorem unknown_opcode_skipped_witness :
    translate [(⟨"jump", []⟩ : Descriptor),
        ⟨"const", [("value", 1), ("adress", 0)]⟩] =
      translate [⟨"const", [("value", 1), ("adress", 0)]⟩] :=
  unknown_opcode_skipped ⟨"jump", []⟩ _ (by decide) (by decide) (by decide)
    (by decide)

theorem getField_of_hasField (cmd : Descriptor) (key : String)
    (h : hasField cmd key) : getField cmd key = .ok (fieldD cmd key) := by
  unfold hasField at h
  unfold getField fieldD
  cases hf : cmd.fields.find? (fun kv => kv.1 = key) with
  | none => rw [hf] at h; simp at h
  | some kv => rfl

theorem translateCmd_valid (cmd : Descriptor) (h : isValidDescriptor cmd) :
    translateCmd cmd = .ok (some (lower cmd)) := by
  rcases h with ⟨hop, hf1, hf2⟩ | ⟨hop, hf1, hf2⟩ | ⟨hop, hf1, hf2⟩ |
    ⟨hop, hf1, hf2, hf3⟩
  · unfold translateCmd lower
    rw [if_pos hop, if_pos hop,
      getField_of_hasField _ _ hf1, getField_of_hasField _ _ hf2]
    rfl
  · have hnc : ¬ cmd.op = "const" := by rw [hop]; decide
    unfold translateCmd lower
    rw [if_neg hnc, if_neg hnc, if_pos hop, if_pos hop,
      getField_of_hasField _ _ hf1, getField_of_hasField _ _ hf2]
    rfl
  · have hnc : ¬ cmd.op = "const" := by rw [hop]; decide
    have hnr : ¬ cmd.op = "read" := by rw [hop]; decide
    unfold translateCmd lower
    rw [if_neg hnc, if_neg hnc, if_neg hnr, if_neg hnr, if_pos hop,
      if_pos hop, getField_of_hasField _ _ hf1, getField_of_hasField _ _ hf2]
    rfl
  · have hnc : ¬ cmd.op = "const" := by rw [hop]; decide
    have hnr : ¬ cmd.op = "read" := by rw [hop]; decide
    have hnw : ¬ cmd.op = "write" := by rw [hop]; decide
    unfold translateCmd lower
    rw [if_neg hnc, if_neg hnc, if_neg hnr, if_neg hnr, if_neg hnw,
      if_neg hnw, if_pos hop, getField_of_hasField _ _ hf1,
      getField_of_hasField _ _ hf2, getField_of_hasField _ _ hf3]
    rfl

theorem translate_valid (ds : List Descriptor)
    (h : ∀ cmd ∈ ds, isValidDescriptor cmd) :
    translate ds = .ok (ds.map lower) := by
  induction ds with
  | nil => rfl
  | cons cmd rest ih =>
    have hcmd := translateCmd_valid cmd (h cmd (by simp))
    have hrest := ih (fun c hc => h c (by simp [hc]))
    show (translateCmd cmd >>= fun head =>
        translate rest >>= fun tail =>
          match head with
          | some i => Except.ok (i :: tail)
          | none => Except.ok tail) = _
    rw [hcmd, hrest]
    rfl

/-- C5: on a valid descriptor list the translator succeeds, producing
exactly one instruction per descriptor in input order: the output is the
elementwise lowering of the input, and its length equals the input
length. -/
theorem translate_valid_length_order (ds : List Descriptor)
    (h : ∀ cmd ∈ ds, isValidDescriptor cmd) :
    translate ds = .ok (ds.map lower) ∧ (ds.map lower).length = ds.length :=
  ⟨translate_valid ds h, List.length_map ds lower⟩

/-- Witness for C5 on a concrete two-descriptor list, one per arity. -/
theorem translate_valid_length_order_witness :
    (∀ cmd ∈ [(⟨"const", [("value", 7), ("adress", 1)]⟩ : Descriptor),
        ⟨"negate", [("shift", 1), ("adressC", 0), ("adressD", 2)]⟩],
      isValidDescriptor cmd) ∧
    translate [(⟨"const", [("value", 7), ("adress", 1)]⟩ : Descriptor),
        ⟨"negate", [("shift", 1), ("adressC", 0), ("adressD", 2)]⟩] =
      .ok ([(⟨"const", [("value", 7), ("adress", 1)]⟩ : Descriptor),
        ⟨"negate", [("shift", 1), ("adressC", 0), ("adressD", 2)]⟩].map
          lower) ∧
    ([(⟨"const", [("value", 7), ("adress", 1)]⟩ : Descriptor),
        ⟨"negate", [("shift", 1), ("adressC", 0), ("adressD", 2)]⟩].map
          lower).length =
      ([(⟨"const", [("value", 7), ("adress", 1)]⟩ : Descriptor),
        ⟨"negate", [("shift", 1), ("adressC", 0), ("adressD", 2)]⟩] :
        List Descriptor).length :=
  ⟨by decide, translate_valid_length_order _ (by decide)⟩

/-! ### C7: the persisted text round-trips -/

theorem natDigit_isDigit (n : Nat) : isDigitC (natDigit n) = true := by
  unfold natDigit
  split_ifs <;> decide

theorem digitVal_natDigit (n : Nat) : digitVal (natDigit n) = n % 10 := by
  have hm : n % 10 < 10 := Nat.mod_lt n (by omega)
  unfold natDigit
  split_ifs <;> simp_all [digitVal] <;> omega

theorem renderNat_head : ∀ (n : Nat),
    ∃ c t, renderNat n = c :: t ∧ isDigitC c = true
  | n => by
    by_cases h : n < 10
    · exact ⟨natDigit n, [], by rw [renderNat, if_pos h], natDigit_isDigit n⟩
    · obtain ⟨c, t, hct, hc⟩ := renderNat_head (n / 10)
      refine ⟨c, t ++ [natDigit n], ?_, hc⟩
      rw [renderNat, if_neg h, hct]
      rfl
termination_by n => n
decreasing_by exact Nat.div_lt_self (by omega) (by omega)

theorem parseNatAux_render : ∀ (n acc : Nat) (rest : List Char),
    parseNatAux acc (renderNat n ++ rest) =
      parseNatAux (acc * tenPow n + n) rest
  | n, acc, rest => by
    by_cases h : n < 10
    · rw [renderNat, if_pos h, tenPow, if_pos h]
      show parseNatAux acc (natDigit n :: rest) = _
      rw [parseNatAux, if_pos (natDigit_isDigit n), digitVal_natDigit,
        Nat.mod_eq_of_lt h]
    · rw [renderNat, if_neg h, tenPow, if_neg h, List.append_assoc,
        List.singleton_append]
      rw [parseNatAux_render (n / 10) acc (natDigit n :: rest)]
      show parseNatAux _ (natDigit n :: rest) = _
      rw [parseNatAux, if_pos (natDigit_isDigit n), digitVal_natDigit]
      congr 1
      have hn : 10 * (n / 10) + n % 10 = n := Nat.div_add_mod n 10
      nlinarith [hn]
termination_by n _ _ => n
decreasing_by exact Nat.div_lt_self (by omega) (by omega)

theorem parseNatAux_stop (acc : Nat) (rest : List Char)
    (h : headDigit rest = false) : parseNatAux acc rest = (acc, rest) := by
  cases rest with
  | nil => rfl
  | cons c t =>
    have hc : isDigitC c = false := h
    rw [parseNatAux, if_neg (by rw [hc]; exact Bool.false_ne_true)]

theorem parseNat_render (n : Nat) (rest : List Char)
    (h : headDigit rest = false) :
    parseNat (renderNat n ++ rest) = some (n, rest) := by
  obtain ⟨c, t, hct, hc⟩ := renderNat_head n
  rw [hct, List.cons_append, parseNat, if_pos hc, ← List.cons_append, ← hct,
    parseNatAux_render n 0 rest, Nat.zero_mul, Nat.zero_add,
    parseNatAux_stop n rest h]

theorem parseInt_render (i : Int) (rest : List Char)
    (h : headDigit rest = false) :
    parseInt (renderInt i ++ rest) = some (i, rest) := by
  by_cases hi : i < 0
  · rw [renderInt, if_pos hi, List.cons_append, parseInt, if_pos rfl,
      parseNat_render _ _ h, Option.map_some']
    have : ((-i).toNat : Int) = -i := Int.toNat_of_nonneg (by omega)
    rw [this]
    simp
  · rw [renderInt, if_neg hi]
    obtain ⟨c, t, hct, hc⟩ := renderNat_head i.toNat
    have hcm : ¬ c = '-' := by
      intro hcc
      rw [hcc] at hc
      exact absurd hc (by decide)
    rw [hct, List.cons_append, parseInt, if_neg hcm, ← List.cons_append,
      ← hct, parseNat_render _ _ h, Option.map_some']
    have : (i.toNat : Int) = i := Int.toNat_of_nonneg (by omega)
    rw [this]

theorem stripL_append : ∀ (l s : List Char), stripL l (l ++ s) = some s
  | [], s => rfl
  | c :: l, s => by
    rw [List.cons_append, stripL, if_pos rfl]
    exact stripL_append l s

theorem parseArgs2_render (mk : Int → Int → Instr) (v w : Int)
    (rest : List Char) :
    parseArgs2 mk
      (renderInt v ++ (',' :: ' ' :: (renderInt w ++ (')' :: rest)))) =
      some (mk v w, rest) := by
  unfold parseArgs2
  rw [parseInt_render v (',' :: ' ' :: (renderInt w ++ (')' :: rest))) rfl]
  simp only [Option.bind_eq_bind, Option.some_bind]
  have h1 : stripL [',', ' '] (',' :: ' ' :: (renderInt w ++ (')' :: rest))) =
      some (renderInt w ++ (')' :: rest)) :=
    stripL_append [',', ' '] _
  rw [h1]
  simp only [Option.some_bind]
  rw [parseInt_render w (')' :: rest) rfl]
  simp only [Option.some_bind]
  have h2 : stripL [')'] (')' :: rest) = some rest := stripL_append [')'] rest
  rw [h2]
  rfl

theorem parseArgs3_render (mk : Int → Int → Int → Instr) (v w x : Int)
    (rest : List Char) :
    parseArgs3 mk
      (renderInt v ++ (',' :: ' ' :: (renderInt w ++ (',' :: ' ' ::
        (renderInt x ++ (')' :: rest)))))) =
      some (mk v w x, rest) := by
  unfold parseArgs3
  rw [parseInt_render v (',' :: ' ' :: (renderInt w ++ (',' :: ' ' ::
    (renderInt x ++ (')' :: rest))))) rfl]
  simp only [Option.bind_eq_bind, Option.some_bind]
  have h1 : stripL [',', ' ']
      (',' :: ' ' :: (renderInt w ++ (',' :: ' ' ::
        (renderInt x ++ (')' :: rest))))) =
      some (renderInt w ++ (',' :: ' ' :: (renderInt x ++ (')' :: rest)))) :=
    stripL_append [',', ' '] _
  rw [h1]
  simp only [Option.some_bind]
  rw [parseInt_render w (',' :: ' ' :: (renderInt x ++ (')' :: rest))) rfl]
  simp only [Option.some_bind]
  have h2 : stripL [',', ' '] (',' :: ' ' :: (renderInt x ++ (')' :: rest))) =
      some (renderInt x ++ (')' :: rest)) :=
    stripL_append [',', ' '] _
  rw [h2]
  simp only [Option.some_bind]
  rw [parseInt_render x (')' :: rest) rfl]
  simp only [Option.some_bind]
  have h3 : stripL [')'] (')' :: rest) = some rest := stripL_append [')'] rest
  rw [h3]
  rfl

theorem parseInstr_render : ∀ (i : Instr) (rest : List Char),
    parseInstr (renderInstr i ++ rest) = some (i, rest)
  | .const value adress, rest => by
    show parseArgs2 Instr.const
      ((renderInt value ++ ',' :: ' ' :: (renderInt adress ++ [')'])) ++
        rest) = _
    simp only [List.append_assoc, List.cons_append, List.singleton_append]
    exact parseArgs2_render Instr.const value adress rest
  | .read adressB adressC, rest => by
    show parseArgs2 Instr.read
      ((renderInt adressB ++ ',' :: ' ' :: (renderInt adressC ++ [')'])) ++
        rest) = _
    simp only [List.append_assoc, List.cons_append, List.singleton_append]
    exact parseArgs2_render Instr.read adressB adressC rest
  | .write adressB adressC, rest => by
    show parseArgs2 Instr.write
      ((renderInt adressB ++ ',' :: ' ' :: (renderInt adressC ++ [')'])) ++
        rest) = _
    simp only [List.append_assoc, List.cons_append, List.singleton_append]
    exact parseArgs2_render Instr.write adressB adressC rest
  | .negate shift adressC adressD, rest => by
    show parseArgs3 Instr.negate
      ((renderInt shift ++ ',' :: ' ' :: (renderInt adressC ++ ',' :: ' ' ::
        (renderInt adressD ++ [')']))) ++ rest) = _
    simp only [List.append_assoc, List.cons_append, List.singleton_append]
    exact parseArgs3_render Instr.negate shift adressC adressD rest

theorem parseItems_render :
    ∀ (ps : List Instr) (first : Instr) (fuel : Nat), ps.length < fuel →
      parseItems fuel (renderItems (first :: ps) ++ [']']) =
        some (first :: ps, [']'])
  | [], first, fuel, hf => by
    cases fuel with
    | zero => omega
    | succ m =>
      simp only [renderItems]
      rw [parseItems, parseInstr_render first [']']]
      rfl
  | i2 :: ps2, first, fuel, hf => by
    cases fuel with
    | zero => omega
    | succ m =>
      simp only [renderItems, List.append_assoc, List.cons_append]
      rw [parseItems, parseInstr_render first
        (',' :: ' ' :: (renderItems (i2 :: ps2) ++ [']']))]
      show (parseItems m (renderItems (i2 :: ps2) ++ [']'])).map
        (fun pr => (first :: pr.1, pr.2)) = _
      rw [parseItems_render ps2 i2 m (by simpa using hf)]
      rfl

theorem renderInstr_head (i : Instr) : ∃ t, renderInstr i = '(' :: t := by
  cases i <;> exact ⟨_, rfl⟩

theorem renderItems_cons_head (first : Instr) (ps : List Instr) :
    ∃ t, renderItems (first :: ps) = '(' :: t := by
  obtain ⟨t, ht⟩ := renderInstr_head first
  cases ps with
  | nil => exact ⟨t, ht⟩
  | cons i2 ps2 =>
    refine ⟨t ++ ',' :: ' ' :: renderItems (i2 :: ps2), ?_⟩
    simp only [renderItems, ht, List.cons_append]

theorem renderItems_length_ge :
    ∀ (ps : List Instr) (first : Instr),
      (first :: ps).length ≤ (renderItems (first :: ps)).length
  | [], first => by
    obtain ⟨t, ht⟩ := renderInstr_head first
    simp [renderItems, ht]
  | i2 :: ps2, first => by
    obtain ⟨t, ht⟩ := renderInstr_head first
    have ih := renderItems_length_ge ps2 i2
    simp only [renderItems, ht, List.length_append, List.length_cons] at *
    omega

/-- C7: writing the IR out as `pr3asm.py` does (Python `str` of the
tuple list) and reading the text back as `pr3inter.py` does (`eval` of
that text) reproduces the identical instruction sequence — same
opcodes, same operand values, same order. -/
theorem serialize_deserialize_roundtrip (p : List Instr) :
    deserialize (serialize p) = some p := by
  cases p with
  | nil => rfl
  | cons first ps =>
    obtain ⟨t, ht⟩ := renderItems_cons_head first ps
    have hne : ¬ (renderItems (first :: ps) ++ [']'] = [']']) := by
      rw [ht]
      intro hcontra
      have : '(' = ']' := List.head_eq_of_cons_eq hcontra
      exact absurd this (by decide)
    have hfuel : ps.length < (renderItems (first :: ps) ++ [']']).length := by
      have := renderItems_length_ge ps first
      simp only [List.length_append, List.length_cons] at *
      omega
    show deserialize ('[' :: (renderItems (first :: ps) ++ [']'])) = _
    rw [deserialize, if_neg hne,
      parseItems_render ps first _ hfuel]
    rfl

end VM
